import Mathlib

/-!
Verification of the busybox `shuf` applet (coreutils/shuf.c): the partial
Fisher-Yates shuffle engine, the three line sources (argument mode, numeric
range mode, stream mode), the `-n` output clamp and the output projection.
The C code is shallowly embedded: the line collection is a `List`, machine
integers are `Nat` with explicit `% 2 ^ 32` where wrap-around matters, the
`rand()` stream is an explicit function `Nat → Nat` consumed at increasing
positions, and fallible code returns `Option`/`Except`.
-/

namespace BusyboxShuf

/-- Largest value of the C `unsigned` type (32 bits on every platform busybox-w32 targets). -/
def UINT_MAX : Nat := 2 ^ 32 - 1

/-- Largest value of the C `unsigned long long` type (64 bits). -/
def ULLONG_MAX : Nat := 2 ^ 64 - 1

/-- `RAND_MAX` of the C runtime targeted by busybox-w32; the code comment in
`shuffle_lines` notes it "can be as small as 32767", which is its msvcrt value. -/
def RAND_MAX : Nat := 32767

/-- The two-draw entropy extension of `shuffle_lines` (line 54 of shuf.c):
`r ^= rand() << 15`, computed in the 32-bit `unsigned` variable `r`. -/
def combineDraws (d1 d2 : Nat) : Nat :=
  (d1 ^^^ ((d2 <<< 15) % 2 ^ 32)) % 2 ^ 32

/-- The random index computation of one shuffle iteration (lines 51-55 of
shuf.c): `r = rand(); if (numlines > RAND_MAX) r ^= rand() << 15; r %= numlines;`.
`d1` and `d2` are the one or two generator draws consumed by this iteration. -/
def randIndex (randMax numlines d1 d2 : Nat) : Nat :=
  (if randMax < numlines then combineDraws d1 d2 else d1) % numlines

/-- The shuffle engine `shuffle_lines` (lines 45-67 of shuf.c), with the
pseudo-random generator abstracted as a stream `rnd` read at positions
`pos, pos+1, ...`; each `rand()` call yields `rnd i % (randMax + 1)`.
The loop `while (outlines != 0)` is recursion on `outlines`; each iteration
draws one or two values, computes `r`, decrements `numlines` and swaps
`lines[numlines]` with `lines[r]` via the three-assignment `tmp` sequence.
The embedding is guarded: `r %= numlines` with `numlines == 0` (C undefined
behaviour) and any out-of-bounds array access answer `none`. -/
def shuffle_lines {α : Type} (randMax : Nat) (rnd : Nat → Nat) :
    List α → Nat → Nat → Nat → Option (List α)
  | lines, _, 0, _ => some lines
  | _, 0, _ + 1, _ => none
  | lines, n + 1, o + 1, pos =>
      let d1 := rnd pos % (randMax + 1)
      let d2 := rnd (pos + 1) % (randMax + 1)
      let r := randIndex randMax (n + 1) d1 d2
      let pos2 := if randMax < n + 1 then pos + 2 else pos + 1
      if hn : n < lines.length then
        if hr : r < lines.length then
          shuffle_lines randMax rnd ((lines.set n lines[r]).set r lines[n]) n o pos2
        else none
      else none

/-- Exchange of the elements at positions `i` and `j` of a list, identity when
either index is out of range.  Used to state the specification's description of
one Fisher-Yates step. -/
def swapPos {α : Type} (l : List α) (i j : Nat) : List α :=
  match l[i]?, l[j]? with
  | some x, some y => (l.set i y).set j x
  | _, _ => l

/-- Modelled from the spec (§4.2): the partial Fisher-Yates algorithm as worded
there — "maintain a shrinking active prefix of length `n`; repeat: draw a random
index `r` in `[0, n)`; swap the handle at position `r` with the handle at
position `n-1`; decrement `n`" — parameterised by the list of drawn indices. -/
def specFY {α : Type} : List α → List Nat → Nat → List α
  | lines, [], _ => lines
  | lines, r :: rest, n => specFY (swapPos lines r (n - 1)) rest (n - 1)

/-- Error kinds surfaced by the embedded `shuf_main`.  `usage` stands for
`bb_show_usage` (mode conflicts and operand-count errors), `badRange` for the
"bad range" diagnostics of the `-i` parser, `badNumber` for `xatoull` rejecting
an endpoint, and `internalBug` for the (provably unreachable) guard failure of
the shuffle engine. -/
inductive ShufError where
  | usage
  | badRange
  | badNumber
  | internalBug
  deriving DecidableEq

/-- Digit test `'0' <= c && c <= '9'` used by the decimal parser. -/
def isDig (c : Char) : Bool := decide (48 ≤ c.toNat) && decide (c.toNat ≤ 57)

/-- Value of a decimal digit string (most significant digit first). -/
def natOfDigits (s : List Char) : Nat :=
  s.foldl (fun acc c => 10 * acc + (c.toNat - 48)) 0

/-- Modelled from the spec (§4.1, libbb's `xatoull` is not under src/):
"parse both endpoints as unsigned 64-bit integers" — a nonempty string of
decimal digits whose value fits in 64 bits; anything else is rejected
(`bb_strtoull` demands an alphanumeric first character, a fully consumed
string and no overflow, and `xatoull` dies on rejection). -/
def xatoull (s : List Char) : Option Nat :=
  if s = [] then none
  else if s.all isDig then
    if natOfDigits s ≤ ULLONG_MAX then some (natOfDigits s) else none
  else none

/-- The `-i L-H` range parser of `shuf_main` (lines 103-120 of shuf.c):
`strchr` for the first `'-'` (absence dies with "bad range"), `xatoull` on the
two halves (failure dies inside `xatoull`), death with "bad range" when
`hi < lo`, and death with "bad range" when `hi - lo` reaches the platform's
maximum element count `maxCount` (the C guard `hi >= UINT_MAX` on LP64/LLP64,
`hi >= UINT_MAX / sizeof(lines[0])` otherwise, after `hi -= lo`). -/
def parseRange (maxCount : Nat) (s : List Char) : Except ShufError (Nat × Nat) :=
  if ('-' : Char) ∈ s then
    match xatoull (s.takeWhile (fun c => c != '-')),
          xatoull ((s.dropWhile (fun c => c != '-')).drop 1) with
    | some lo, some hi =>
        if hi < lo then .error .badRange
        else if maxCount ≤ hi - lo then .error .badRange
        else .ok (lo, hi)
    | _, _ => .error .badNumber
  else .error .badRange

/-- Modelled from the spec (§4.1, libbb's `xmalloc_fgetline` is not under
src/): "read newline-delimited lines; each line becomes an owned text handle
with its terminator stripped; end of input is recognized by the absence of any
line, including a final unterminated line if it contains bytes". -/
def splitLines : List Char → List (List Char)
  | [] => []
  | c :: cs =>
      ((c :: cs).takeWhile (fun ch => ch != '\n')) ::
        splitLines (((c :: cs).dropWhile (fun ch => ch != '\n')).drop 1)
termination_by s => s.length
decreasing_by
  have h := (List.dropWhile_sublist (l := c :: cs) (fun ch => ch != '\n')).length_le
  simp only [List.length_drop, List.length_cons] at *
  omega

/-- Character of a single decimal digit. -/
def digitChar (d : Nat) : Char := Char.ofNat (48 + d)

/-- Decimal digits of `n`, least significant first (empty for `0`). -/
def decimalDigitsRev : Nat → List Char
  | 0 => []
  | n + 1 => digitChar ((n + 1) % 10) :: decimalDigitsRev ((n + 1) / 10)
termination_by n => n
decreasing_by
  exact Nat.div_lt_self (Nat.succ_pos n) (by omega)

/-- Modelled from the spec (§4.3, `printf("%llu...")` is C library code):
"emit the decimal string form" of a number. -/
def decimalStr (n : Nat) : List Char :=
  if n = 0 then ['0'] else (decimalDigitsRev n).reverse

/-- The NUL byte used as record terminator under `-z`. -/
def nulChar : Char := Char.ofNat 0

/-- One emitted record of a text handle: `printf("%s%c", lines[i], eol)`. -/
def renderText (eol : Char) (s : List Char) : List Char := s ++ [eol]

/-- One emitted record of an index handle: `printf("%llu%c", lo + (uintptr_t)lines[i], eol)`. -/
def renderNum (lo : Nat) (eol : Char) (i : Nat) : List Char :=
  decimalStr (lo + i) ++ [eol]

/-- Parsed invocation state of `shuf_main` after `getopt32`: the mode flags,
the `-i` argument text, the already-parsed `-n` value (`xatou` result), the
positional operands, and the byte stream the input file or stdin would
provide in stream mode. -/
structure Config where
  opt_e : Bool
  opt_i : Bool
  opt_z : Bool
  opt_i_str : List Char
  optN : Option Nat
  args : List (List Char)
  inputRaw : List Char

/-- Record terminator selection (lines 163-165 of shuf.c): `eol = '\n'; if
(opts & OPT_z) eol = '\0';`. -/
def eolOf (cfg : Config) : Char := if cfg.opt_z then nulChar else '\n'

/-- The `-n` clamp (lines 151-156 of shuf.c): `outlines = numlines; if (opts &
OPT_n) { outlines = xatou(opt_n_str); if (outlines > numlines) outlines =
numlines; }`. -/
def effOutlines (optN : Option Nat) (numlines : Nat) : Nat :=
  match optN with
  | none => numlines
  | some numOpt => if numOpt > numlines then numlines else numOpt

/-- Shuffle plus output projection, common to the three modes (lines 151-172
of shuf.c): clamp `outlines`, call `shuffle_lines`, then run the output loop
`for (i = numlines - outlines; i < numlines; i++)` emitting one record per
index.  The loop is embedded as a map over its index sequence; `dfl` is the
junk value an out-of-bounds `lines[i]` would read (proved unreachable). -/
def shuf_pipeline {α : Type} (randMax : Nat) (rnd : Nat → Nat) (render : α → List Char)
    (dfl : α) (lines : List α) (optN : Option Nat) : Option (List (List Char)) :=
  let numlines := lines.length
  let outlines := effOutlines optN numlines
  match shuffle_lines randMax rnd lines numlines outlines 0 with
  | some shuffled =>
      some ((List.range' (numlines - outlines) (numlines - (numlines - outlines))).map
        (fun i => render (shuffled.getD i dfl)))
  | none => none

/-- The applet body `shuf_main` (lines 70-175 of shuf.c), from the point where
`getopt32` has filled in the option state.  The `"e--i:i--e"` complementary
rule of the `getopt32` spec string makes `-e` with `-i` a usage error; argument
mode takes the operands as lines; range mode rejects any operand, parses
`L-H` and builds the index-handle collection `0 .. numlines-1` retaining `lo`;
stream mode rejects a second operand and splits the input stream into lines.
Each mode then runs the common shuffle-and-project pipeline.  The returned
value is the list of emitted records (output file redirection via `-o` does
not change the bytes and is not modelled). -/
def shuf_main (randMax maxCount : Nat) (rnd : Nat → Nat) (cfg : Config) :
    Except ShufError (List (List Char)) :=
  if cfg.opt_e && cfg.opt_i then .error .usage
  else if cfg.opt_e then
    match shuf_pipeline randMax rnd (renderText (eolOf cfg)) [] cfg.args cfg.optN with
    | some recs => .ok recs
    | none => .error .internalBug
  else if cfg.opt_i then
    if cfg.args ≠ [] then .error .usage
    else
      match parseRange maxCount cfg.opt_i_str with
      | .error e => .error e
      | .ok (lo, hi) =>
          match shuf_pipeline randMax rnd (renderNum lo (eolOf cfg)) 0
              (List.range (hi - lo + 1)) cfg.optN with
          | some recs => .ok recs
          | none => .error .internalBug
  else
    if cfg.args.length > 1 then .error .usage
    else
      match shuf_pipeline randMax rnd (renderText (eolOf cfg)) []
          (splitLines cfg.inputRaw) cfg.optN with
      | some recs => .ok recs
      | none => .error .internalBug

/-- Number of draw pairs `(d1, d2)` (each uniform over `[0, RAND_MAX]`) whose
random-index computation produces the index `v`: the outcome frequency of one
two-draw shuffle iteration with active length `n`. -/
def idxFreq (n v : Nat) : Nat :=
  ((List.range (RAND_MAX + 1)).flatMap (fun d2 =>
    (List.range (RAND_MAX + 1)).map (fun d1 => randIndex RAND_MAX n d1 d2))).count v

/-! Permutation facts about the three-assignment swap. -/

/-- Moving `l[m]` to the front and writing `a` at position `m` permutes `a :: l`. -/
theorem perm_get_cons_set {α : Type} :
    ∀ (l : List α) (m : Nat) (h : m < l.length) (a : α),
      List.Perm (l[m] :: l.set m a) (a :: l)
  | [], m, h, _ => by simp at h
  | b :: t, 0, _, a => by simpa using List.Perm.swap a b t
  | b :: t, m + 1, h, a => by
      have hm : m < t.length := by simpa using h
      have ih := perm_get_cons_set t m hm a
      simp only [List.getElem_cons_succ, List.set_cons_succ]
      have s1 : List.Perm (t[m] :: b :: t.set m a) (b :: t[m] :: t.set m a) :=
        List.Perm.swap b (t[m]) _
      have s2 : List.Perm (b :: t[m] :: t.set m a) (b :: a :: t) := ih.cons b
      have s3 : List.Perm (b :: a :: t) (a :: b :: t) := List.Perm.swap a b t
      exact (s1.trans s2).trans s3

/-- The double `set` performing `tmp = l[i]; l[i] = l[j]; l[j] = tmp` is a
permutation of `l`. -/
theorem perm_set_set {α : Type} :
    ∀ (l : List α) (i j : Nat) (hi : i < l.length) (hj : j < l.length),
      List.Perm ((l.set i l[j]).set j l[i]) l
  | [], i, _, hi, _ => by simp at hi
  | a :: t, 0, 0, _, _ => by simp
  | a :: t, 0, m + 1, _, hj => by
      have hm : m < t.length := by simpa using hj
      simpa using perm_get_cons_set t m hm a
  | a :: t, q + 1, 0, hi, _ => by
      have hq : q < t.length := by simpa using hi
      simpa using perm_get_cons_set t q hq a
  | a :: t, q + 1, m + 1, hi, hj => by
      have hq : q < t.length := by simpa using hi
      have hm : m < t.length := by simpa using hj
      simpa using (perm_set_set t q m hq hm).cons a

/-- In-range `swapPos` is exactly the three-assignment swap of the C code. -/
theorem swapPos_eq_set_set {α : Type} (l : List α) (i j : Nat)
    (hi : i < l.length) (hj : j < l.length) :
    swapPos l i j = (l.set i l[j]).set j l[i] := by
  unfold swapPos
  rw [List.getElem?_eq_getElem hi, List.getElem?_eq_getElem hj]

/-- Exchanging two positions does not depend on the order they are named. -/
theorem swapPos_comm {α : Type} (l : List α) (i j : Nat) :
    swapPos l i j = swapPos l j i := by
  unfold swapPos
  rcases h1 : l[i]? with _ | x <;> rcases h2 : l[j]? with _ | y <;> simp
  rcases eq_or_ne i j with rfl | hne
  · obtain rfl : x = y := by
      have := h1.symm.trans h2
      exact Option.some.inj this
    rfl
  · exact List.set_comm y x l hne

/-- `swapPos` permutes the list (identity when out of range). -/
theorem swapPos_perm {α : Type} (l : List α) (i j : Nat) :
    List.Perm (swapPos l i j) l := by
  unfold swapPos
  rcases h1 : l[i]? with _ | x <;> rcases h2 : l[j]? with _ | y <;>
    first
      | exact List.Perm.refl l
      | skip
  obtain ⟨hi, hx⟩ := List.getElem?_eq_some_iff.mp h1
  obtain ⟨hj, hy⟩ := List.getElem?_eq_some_iff.mp h2
  subst hx hy
  exact perm_set_set l i j hi hj

/-- `specFY` permutes the collection whatever indices were drawn. -/
theorem specFY_perm {α : Type} :
    ∀ (idxs : List Nat) (l : List α) (n : Nat), List.Perm (specFY l idxs n) l
  | [], l, _ => List.Perm.refl l
  | r :: rest, l, n =>
      (specFY_perm rest (swapPos l r (n - 1)) (n - 1)).trans (swapPos_perm l r (n - 1))

/-! Unfolding equations of the shuffle engine. -/

theorem shuffle_lines_zero {α : Type} (randMax : Nat) (rnd : Nat → Nat)
    (lines : List α) (numlines pos : Nat) :
    shuffle_lines randMax rnd lines numlines 0 pos = some lines := by
  cases numlines <;> rfl

theorem shuffle_lines_dead {α : Type} (randMax : Nat) (rnd : Nat → Nat)
    (lines : List α) (o pos : Nat) :
    shuffle_lines randMax rnd lines 0 (o + 1) pos = none := rfl

theorem shuffle_lines_succ {α : Type} (randMax : Nat) (rnd : Nat → Nat)
    (lines : List α) (n o pos : Nat) :
    shuffle_lines randMax rnd lines (n + 1) (o + 1) pos =
      if hn : n < lines.length then
        if hr : randIndex randMax (n + 1) (rnd pos % (randMax + 1))
            (rnd (pos + 1) % (randMax + 1)) < lines.length then
          shuffle_lines randMax rnd
            ((lines.set n
                lines[randIndex randMax (n + 1) (rnd pos % (randMax + 1))
                  (rnd (pos + 1) % (randMax + 1))]).set
              (randIndex randMax (n + 1) (rnd pos % (randMax + 1))
                (rnd (pos + 1) % (randMax + 1)))
              lines[n])
            n o (if randMax < n + 1 then pos + 2 else pos + 1)
        else none
      else none := rfl

/-- Refinement of the shuffle engine by the specification's algorithm: under
the established precondition, the loop succeeds and its effect is `specFY`
applied to some sequence of exactly `outlines` drawn indices, the `k`-th of
which is in range `[0, numlines - k)`. -/
theorem shuffle_refine {α : Type} (randMax : Nat) (rnd : Nat → Nat) :
    ∀ (outlines : Nat) (lines : List α) (numlines pos : Nat),
      outlines ≤ numlines → numlines ≤ lines.length →
      ∃ idxs : List Nat, idxs.length = outlines ∧
        (∀ k, k < idxs.length → idxs.getD k 0 < numlines - k) ∧
        shuffle_lines randMax rnd lines numlines outlines pos =
          some (specFY lines idxs numlines)
  | 0, lines, numlines, pos, _, _ =>
      ⟨[], rfl, by simp, by rw [shuffle_lines_zero]; rfl⟩
  | o + 1, _, 0, _, ho, _ => absurd ho (by omega)
  | o + 1, lines, n + 1, pos, ho, hlen => by
      have hn : n < lines.length := by omega
      obtain ⟨r, hrg⟩ : ∃ r, randIndex randMax (n + 1) (rnd pos % (randMax + 1))
          (rnd (pos + 1) % (randMax + 1)) = r := ⟨_, rfl⟩
      have hrlt : r < n + 1 := by
        rw [← hrg]; unfold randIndex; exact Nat.mod_lt _ (Nat.succ_pos n)
      have hr : r < lines.length := by omega
      obtain ⟨idxs, hl, hb, heq⟩ := shuffle_refine randMax rnd o
        ((lines.set n lines[r]).set r lines[n]) n
        (if randMax < n + 1 then pos + 2 else pos + 1) (by omega) (by simp; omega)
      refine ⟨r :: idxs, by simp [hl], ?_, ?_⟩
      · intro k hk
        cases k with
        | zero => simpa using hrlt
        | succ k =>
            have hb2 := hb k (by simpa using hk)
            simpa using hb2
      · rw [shuffle_lines_succ]
        simp only [hrg]
        rw [dif_pos hn, dif_pos hr, heq]
        have h1 : specFY lines (r :: idxs) (n + 1) = specFY (swapPos lines r n) idxs n := rfl
        rw [h1, swapPos_comm, swapPos_eq_set_set lines n r hn hr]

/-- Success, permutation and the `outlines = 0` fixpoint of the shuffle, in
one reusable statement. -/
theorem shuffle_lines_spec {α : Type} (randMax : Nat) (rnd : Nat → Nat)
    (lines : List α) (numlines outlines pos : Nat)
    (ho : outlines ≤ numlines) (hn : numlines ≤ lines.length) :
    ∃ res, shuffle_lines randMax rnd lines numlines outlines pos = some res ∧
      List.Perm res lines ∧ (outlines = 0 → res = lines) := by
  obtain ⟨idxs, hl, _, heq⟩ := shuffle_refine randMax rnd outlines lines numlines pos ho hn
  refine ⟨specFY lines idxs numlines, heq, specFY_perm idxs lines numlines, ?_⟩
  rintro rfl
  obtain rfl : idxs = [] := List.length_eq_zero.mp hl
  rfl

/-! The output loop and the pipeline shape. -/

/-- The output `for` loop over an in-bounds index window reads exactly the
corresponding segment of the list (the junk default is never consulted). -/
theorem range'_map_getD {α : Type} (dfl : α) :
    ∀ (cnt s : Nat) (l : List α), s + cnt ≤ l.length →
      (List.range' s cnt).map (fun i => l.getD i dfl) = (l.drop s).take cnt
  | 0, s, l, _ => by simp
  | cnt + 1, s, l, h => by
      have hs : s < l.length := by omega
      rw [List.range'_succ, List.map_cons, range'_map_getD dfl cnt (s + 1) l (by omega)]
      simp only [List.getD_eq_getElem?_getD, List.getElem?_eq_getElem hs, Option.getD_some]
      rw [List.drop_eq_getElem_cons hs, List.take_succ_cons]

/-- The clamped output count never exceeds the collection size. -/
theorem effOutlines_le (optN : Option Nat) (numlines : Nat) :
    effOutlines optN numlines ≤ numlines := by
  cases optN with
  | none => exact Nat.le_refl _
  | some numOpt =>
      show (if numOpt > numlines then numlines else numOpt) ≤ numlines
      by_cases hc : numOpt > numlines
      · rw [if_pos hc]
      · rw [if_neg hc]
        omega

/-- Characterisation of the shuffle-and-project pipeline: the shuffle succeeds
with a permutation of the collection and the emitted records are the rendered
trailing window, in array order. -/
theorem shuf_pipeline_shape {α : Type} (randMax : Nat) (rnd : Nat → Nat)
    (render : α → List Char) (dfl : α) (lines : List α) (optN : Option Nat) :
    ∃ shuffled,
      shuffle_lines randMax rnd lines lines.length (effOutlines optN lines.length) 0 =
        some shuffled ∧
      List.Perm shuffled lines ∧
      shuf_pipeline randMax rnd render dfl lines optN =
        some ((shuffled.drop (lines.length - effOutlines optN lines.length)).map render) := by
  obtain ⟨shuffled, heq, hperm, _⟩ := shuffle_lines_spec randMax rnd lines lines.length
    (effOutlines optN lines.length) 0 (effOutlines_le _ _) (Nat.le_refl _)
  refine ⟨shuffled, heq, hperm, ?_⟩
  simp only [shuf_pipeline, heq]
  have hlen : shuffled.length = lines.length := hperm.length_eq
  have hle := effOutlines_le optN lines.length
  have harg : (lines.length - effOutlines optN lines.length) +
      (lines.length - (lines.length - effOutlines optN lines.length)) ≤ shuffled.length := by
    omega
  have e2 : (List.range' (lines.length - effOutlines optN lines.length)
        (lines.length - (lines.length - effOutlines optN lines.length))).map
        (fun i => render (shuffled.getD i dfl)) =
      ((List.range' (lines.length - effOutlines optN lines.length)
        (lines.length - (lines.length - effOutlines optN lines.length))).map
        (fun i => shuffled.getD i dfl)).map render := by
    rw [List.map_map]
    rfl
  rw [e2, range'_map_getD dfl _ _ shuffled harg]
  have hdroplen : (shuffled.drop (lines.length - effOutlines optN lines.length)).length =
      lines.length - (lines.length - effOutlines optN lines.length) := by
    simp [hlen]
  rw [← hdroplen, List.take_length]

/-- A subpermutation maps to a subpermutation. -/
theorem subperm_map {α β : Type} (f : α → β) {l1 l2 : List α} (h : l1.Subperm l2) :
    (l1.map f).Subperm (l2.map f) := by
  obtain ⟨l, hp, hs⟩ := h
  exact ⟨l.map f, hp.map f, hs.map f⟩

/-! The claims. -/

/-- C1: the Shuffle Engine performs the partial Fisher-Yates algorithm from
the back: starting with active length `n = numlines`, it repeats exactly
`outlines` times (for every `0 ≤ outlines ≤ numlines`) the step "draw a random
index `r` in `[0, n)`, swap the handles at positions `r` and `n - 1`,
decrement `n`", and performs no further swaps after the `outlines`-th
iteration. -/
theorem shuffle_lines_refines_fisher_yates_spec {α : Type} (randMax : Nat)
    (rnd : Nat → Nat) (lines : List α) (numlines outlines pos : Nat)
    (hn : numlines = lines.length) (ho : outlines ≤ numlines) :
    ∃ idxs : List Nat, idxs.length = outlines ∧
      (∀ k, k < idxs.length → idxs.getD k 0 < numlines - k) ∧
      shuffle_lines randMax rnd lines numlines outlines pos =
        some (specFY lines idxs numlines) :=
  shuffle_refine randMax rnd outlines lines numlines pos ho (Nat.le_of_eq hn)

theorem shuffle_lines_refines_fisher_yates_spec_witness :
    ∃ idxs : List Nat, idxs.length = 2 ∧
      (∀ k, k < idxs.length → idxs.getD k 0 < 3 - k) ∧
      shuffle_lines 32767 (fun _ => 1) [10, 20, 30] 3 2 0 =
        some (specFY [10, 20, 30] idxs 3) :=
  shuffle_lines_refines_fisher_yates_spec 32767 (fun _ => 1) [10, 20, 30] 3 2 0
    rfl (by decide)

/-- C9: under the precondition `outlines ≤ numlines` (established by the `-n`
clamp) and `numlines` equal to the collection size, every loop iteration runs
with a positive active length, `r % numlines` never divides by zero, both
accessed positions stay in bounds, and the error branch of the guarded
embedding is unreachable. -/
theorem shuffle_lines_guard_unreachable {α : Type} (randMax : Nat) (rnd : Nat → Nat)
    (lines : List α) (numlines outlines pos : Nat)
    (ho : outlines ≤ numlines) (hn : numlines = lines.length) :
    shuffle_lines randMax rnd lines numlines outlines pos ≠ none := by
  obtain ⟨res, heq, -, -⟩ := shuffle_lines_spec randMax rnd lines numlines outlines pos
    ho (Nat.le_of_eq hn)
  simp [heq]

theorem shuffle_lines_guard_unreachable_witness :
    shuffle_lines 32767 (fun _ => 1) [10, 20, 30] 3 3 0 ≠ none :=
  shuffle_lines_guard_unreachable 32767 (fun _ => 1) [10, 20, 30] 3 3 0 (by decide) rfl

/-- C10: for every `0 ≤ outlines ≤ numlines` the shuffle leaves the whole Line
Collection a permutation of its initial contents — every iteration is a single
transposition, so the multiset of handles is invariant — and with
`outlines = 0` the collection is returned completely unchanged. -/
theorem shuffle_lines_permutes_whole_collection {α : Type} (randMax : Nat)
    (rnd : Nat → Nat) (lines : List α) (numlines outlines pos : Nat)
    (ho : outlines ≤ numlines) (hn : numlines = lines.length) :
    ∃ res, shuffle_lines randMax rnd lines numlines outlines pos = some res ∧
      List.Perm res lines ∧ (outlines = 0 → res = lines) :=
  shuffle_lines_spec randMax rnd lines numlines outlines pos ho (Nat.le_of_eq hn)

theorem shuffle_lines_permutes_whole_collection_witness :
    ∃ res, shuffle_lines 32767 (fun _ => 1) [10, 20, 30] 3 2 0 = some res ∧
      List.Perm res [10, 20, 30] ∧ (2 = 0 → res = [10, 20, 30]) :=
  shuffle_lines_permutes_whole_collection 32767 (fun _ => 1) [10, 20, 30] 3 2 0
    (by decide) rfl

/-- C2: for every valid invocation the emitted output is a sample without
replacement from the source collection — its multiset never exceeds the
source multiset (no handle is emitted twice, none from outside the source
set) — and when `outlines = numlines` the emitted multiset equals the source
multiset exactly (a permutation). -/
theorem shuf_pipeline_sample_without_replacement {α : Type} (randMax : Nat)
    (rnd : Nat → Nat) (render : α → List Char) (dfl : α) (lines : List α)
    (optN : Option Nat) :
    ∃ out, shuf_pipeline randMax rnd render dfl lines optN = some out ∧
      out.Subperm (lines.map render) ∧
      (effOutlines optN lines.length = lines.length → out.Perm (lines.map render)) := by
  obtain ⟨shuffled, -, hperm, hpipe⟩ := shuf_pipeline_shape randMax rnd render dfl lines optN
  refine ⟨_, hpipe, ?_, ?_⟩
  · exact subperm_map render ((List.drop_sublist _ _).subperm.trans hperm.subperm)
  · intro hfull
    have hz : lines.length - effOutlines optN lines.length = 0 := by omega
    rw [hz, List.drop_zero]
    exact hperm.map render

theorem shuf_pipeline_sample_without_replacement_witness :
    ∃ out, shuf_pipeline 32767 (fun _ => 1) (renderText '\n') []
        [['a'], ['b'], ['c']] none = some out ∧
      out.Subperm ([['a'], ['b'], ['c']].map (renderText '\n')) ∧
      (effOutlines none ([['a'], ['b'], ['c']] : List (List Char)).length =
          ([['a'], ['b'], ['c']] : List (List Char)).length →
        out.Perm ([['a'], ['b'], ['c']].map (renderText '\n'))) :=
  shuf_pipeline_sample_without_replacement 32767 (fun _ => 1) (renderText '\n') []
    [['a'], ['b'], ['c']] none

/-- C3: exactly `min(outlines, numlines)` records are emitted — `outlines`
defaults to `numlines` and with `-n NUM` equals `min(NUM, numlines)` — and the
emitted records are exactly the renderings of the handles at positions
`numlines - outlines` through `numlines - 1`, in increasing index order, with
no re-sorting or re-shuffling after the shuffle. -/
theorem shuf_pipeline_output_window {α : Type} (randMax : Nat) (rnd : Nat → Nat)
    (render : α → List Char) (dfl : α) (lines : List α) (optN : Option Nat) :
    ∃ shuffled,
      shuffle_lines randMax rnd lines lines.length (effOutlines optN lines.length) 0 =
        some shuffled ∧
      shuf_pipeline randMax rnd render dfl lines optN =
        some ((shuffled.drop (lines.length - effOutlines optN lines.length)).map render) ∧
      ((shuffled.drop (lines.length - effOutlines optN lines.length)).map render).length =
        effOutlines optN lines.length ∧
      effOutlines optN lines.length =
        (match optN with
         | none => lines.length
         | some numOpt => min numOpt lines.length) := by
  obtain ⟨shuffled, heq, hperm, hpipe⟩ := shuf_pipeline_shape randMax rnd render dfl lines optN
  have hle := effOutlines_le optN lines.length
  have hlen : shuffled.length = lines.length := hperm.length_eq
  refine ⟨shuffled, heq, hpipe, ?_, ?_⟩
  · simp only [List.length_map, List.length_drop, hlen]
    omega
  · cases optN with
    | none => rfl
    | some numOpt =>
        show (if numOpt > lines.length then lines.length else numOpt) = min numOpt lines.length
        rw [Nat.min_def]
        by_cases hc : numOpt > lines.length
        · rw [if_pos hc, if_neg (by omega)]
        · rw [if_neg hc, if_pos (by omega)]

/-- C8: `-e` together with `-i` is an error, range mode with any positional
operand is an error, and stream mode with more than one positional operand is
an error; in each case the run terminates with an error before any shuffling
or output. -/
theorem shuf_main_mode_and_operand_errors (randMax maxCount : Nat) (rnd : Nat → Nat)
    (cfg : Config) :
    (cfg.opt_e = true → cfg.opt_i = true →
      shuf_main randMax maxCount rnd cfg = .error .usage) ∧
    (cfg.opt_i = true → cfg.args ≠ [] →
      shuf_main randMax maxCount rnd cfg = .error .usage) ∧
    (cfg.opt_e = false → cfg.opt_i = false → cfg.args.length > 1 →
      shuf_main randMax maxCount rnd cfg = .error .usage) := by
  refine ⟨?_, ?_, ?_⟩
  · intro he hi
    simp [shuf_main, he, hi]
  · intro hi hargs
    by_cases he : cfg.opt_e
    · simp [shuf_main, he, hi]
    · simp [shuf_main, he, hi, hargs]
  · intro he hi hlen
    simp [shuf_main, he, hi, hlen]

theorem shuf_main_mode_and_operand_errors_witness :
    shuf_main 32767 (2 ^ 32 - 1) (fun _ => 0)
        ⟨true, true, false, ['1', '-', '2'], none, [], []⟩ =
      Except.error ShufError.usage ∧
    shuf_main 32767 (2 ^ 32 - 1) (fun _ => 0)
        ⟨false, true, false, ['1', '-', '2'], none, [['x']], []⟩ =
      Except.error ShufError.usage ∧
    shuf_main 32767 (2 ^ 32 - 1) (fun _ => 0)
        ⟨false, false, false, [], none, [['x'], ['y']], []⟩ =
      Except.error ShufError.usage :=
  ⟨(shuf_main_mode_and_operand_errors 32767 (2 ^ 32 - 1) (fun _ => 0)
      ⟨true, true, false, ['1', '-', '2'], none, [], []⟩).1 rfl rfl,
    (shuf_main_mode_and_operand_errors 32767 (2 ^ 32 - 1) (fun _ => 0)
      ⟨false, true, false, ['1', '-', '2'], none, [['x']], []⟩).2.1 rfl (by simp),
    (shuf_main_mode_and_operand_errors 32767 (2 ^ 32 - 1) (fun _ => 0)
      ⟨false, false, false, [], none, [['x'], ['y']], []⟩).2.2 rfl rfl (by simp)⟩

/-! Range-mode parsing. -/

/-- A decimal digit is not the range separator. -/
theorem isDig_ne_dash {c : Char} (h : isDig c = true) : (c != '-') = true := by
  have h1 : 48 ≤ c.toNat := by
    have := (Bool.and_eq_true _ _).mp h
    exact of_decide_eq_true this.1
  rw [bne_iff_ne]
  intro hc
  subst hc
  simp at h1

/-- `xatoull` accepts exactly the in-range digit strings. -/
theorem xatoull_digits (ds : List Char) (hne : ds ≠ []) (hd : ds.all isDig = true)
    (hv : natOfDigits ds ≤ ULLONG_MAX) : xatoull ds = some (natOfDigits ds) := by
  simp [xatoull, hne, hd, hv]

/-- C4: a range-mode argument fails with the BadRange diagnostic (with a
non-zero exit before any shuffling or output) if and only if no `'-'`
separator is present, or `H < L`, or `H - L + 1` would exceed the platform's
maximum element count; every other well-formed `"L-H"` with unsigned 64-bit
endpoints succeeds; and the error propagates out of `shuf_main` before any
output. -/
theorem parseRange_badRange_iff (maxCount : Nat) :
    (∀ s : List Char,
      parseRange maxCount s = .error .badRange ↔
        ('-' : Char) ∉ s ∨
        ∃ lo hi, xatoull (s.takeWhile (fun c => c != '-')) = some lo ∧
          xatoull ((s.dropWhile (fun c => c != '-')).drop 1) = some hi ∧
          (hi < lo ∨ maxCount ≤ hi - lo)) ∧
    (∀ ds1 ds2 : List Char, ds1 ≠ [] → ds2 ≠ [] →
      ds1.all isDig = true → ds2.all isDig = true →
      natOfDigits ds1 ≤ ULLONG_MAX → natOfDigits ds2 ≤ ULLONG_MAX →
      natOfDigits ds1 ≤ natOfDigits ds2 →
      natOfDigits ds2 - natOfDigits ds1 < maxCount →
      parseRange maxCount (ds1 ++ '-' :: ds2) =
        .ok (natOfDigits ds1, natOfDigits ds2)) ∧
    (∀ (randMax : Nat) (rnd : Nat → Nat) (cfg : Config) (e : ShufError),
      cfg.opt_e = false → cfg.opt_i = true → cfg.args = [] →
      parseRange maxCount cfg.opt_i_str = .error e →
      shuf_main randMax maxCount rnd cfg = .error e) := by
  refine ⟨?_, ?_, ?_⟩
  · intro s
    unfold parseRange
    by_cases hmem : ('-' : Char) ∈ s
    · rw [if_pos hmem]
      rcases h1 : xatoull (s.takeWhile (fun c => c != '-')) with _ | lo <;>
        rcases h2 : xatoull ((s.dropWhile (fun c => c != '-')).drop 1) with _ | hi <;>
        simp [h1, h2, hmem]
      omega
    · rw [if_neg hmem]
      simp [hmem]
  · intro ds1 ds2 h1ne h2ne h1d h2d h1v h2v hle hov
    have hall : ∀ a ∈ ds1, (fun c => c != '-') a = true := by
      intro a ha
      exact isDig_ne_dash (List.all_eq_true.mp h1d a ha)
    have ht : (ds1 ++ '-' :: ds2).takeWhile (fun c => c != '-') = ds1 := by
      rw [List.takeWhile_append_of_pos hall]
      simp [List.takeWhile_cons]
    have hd : ((ds1 ++ '-' :: ds2).dropWhile (fun c => c != '-')).drop 1 = ds2 := by
      rw [List.dropWhile_append_of_pos hall]
      simp [List.dropWhile_cons]
    unfold parseRange
    rw [if_pos (by simp)]
    simp only [ht, hd, xatoull_digits ds1 h1ne h1d h1v, xatoull_digits ds2 h2ne h2d h2v]
    rw [if_neg (by omega), if_neg (by omega)]
  · intro randMax rnd cfg e he hi hargs hp
    simp [shuf_main, he, hi, hargs, hp]

theorem parseRange_badRange_iff_witness :
    parseRange (2 ^ 32 - 1) ['9', '-', '5'] = Except.error ShufError.badRange ∧
    parseRange (2 ^ 32 - 1) ['3', '-', '7'] = Except.ok (3, 7) := by
  constructor
  · exact ((parseRange_badRange_iff (2 ^ 32 - 1)).1 ['9', '-', '5']).mpr
      (Or.inr ⟨9, 5, by decide, by decide, Or.inl (by decide)⟩)
  · exact (parseRange_badRange_iff (2 ^ 32 - 1)).2.1 ['3'] ['7'] (by decide) (by decide)
      (by decide) (by decide) (by decide) (by decide) (by decide) (by decide)

/-- C5: on every successful range-mode parse of `"L-H"` the Line Collection is
built from `numlines = H - L + 1` index handles holding `0 .. numlines - 1` in
order, the lower bound `L` is retained, and the Output Projector emits for the
handle holding value `i` the decimal string of `L + i` (followed by the
terminator); in particular `"3-3"` yields a one-element collection emitting
`3`. -/
theorem shuf_main_range_mode_collection (randMax maxCount : Nat) (rnd : Nat → Nat)
    (cfg : Config) (lo hi : Nat)
    (he : cfg.opt_e = false) (hoi : cfg.opt_i = true) (hargs : cfg.args = [])
    (hp : parseRange maxCount cfg.opt_i_str = .ok (lo, hi)) :
    ∃ shuffled : List Nat,
      shuffle_lines randMax rnd (List.range (hi - lo + 1)) (hi - lo + 1)
        (effOutlines cfg.optN (hi - lo + 1)) 0 = some shuffled ∧
      List.Perm shuffled (List.range (hi - lo + 1)) ∧
      shuf_main randMax maxCount rnd cfg =
        .ok ((shuffled.drop ((hi - lo + 1) - effOutlines cfg.optN (hi - lo + 1))).map
          (renderNum lo (eolOf cfg))) := by
  obtain ⟨shuffled, heq, hperm, hpipe⟩ := shuf_pipeline_shape randMax rnd
    (renderNum lo (eolOf cfg)) 0 (List.range (hi - lo + 1)) cfg.optN
  rw [List.length_range] at heq hpipe
  refine ⟨shuffled, heq, hperm, ?_⟩
  simp [shuf_main, he, hoi, hargs, hp, hpipe]

theorem shuf_main_range_mode_collection_witness :
    ∃ shuffled : List Nat,
      shuffle_lines 32767 (fun _ => 0) (List.range (3 - 3 + 1)) (3 - 3 + 1)
        (effOutlines none (3 - 3 + 1)) 0 = some shuffled ∧
      List.Perm shuffled (List.range (3 - 3 + 1)) ∧
      shuf_main 32767 (2 ^ 32 - 1) (fun _ => 0)
          ⟨false, true, false, ['3', '-', '3'], none, [], []⟩ =
        .ok ((shuffled.drop ((3 - 3 + 1) - effOutlines none (3 - 3 + 1))).map
          (renderNum 3 (eolOf ⟨false, true, false, ['3', '-', '3'], none, [], []⟩))) :=
  shuf_main_range_mode_collection 32767 (2 ^ 32 - 1) (fun _ => 0)
    ⟨false, true, false, ['3', '-', '3'], none, [], []⟩ 3 3 rfl rfl rfl rfl

/-! Record terminators. -/

/-- Lines produced by the stream-mode line reader never contain a newline. -/
theorem splitLines_no_newline :
    ∀ (s : List Char), ∀ l ∈ splitLines s, ('\n' : Char) ∉ l
  | [], l, hl => by simp [splitLines] at hl
  | c :: cs, l, hl => by
      simp only [splitLines] at hl
      rcases List.mem_cons.mp hl with rfl | hmem
      · intro hnl
        have := List.mem_takeWhile_imp hnl
        simp at this
      · exact splitLines_no_newline
          (((c :: cs).dropWhile (fun ch => ch != '\n')).drop 1) l hmem
termination_by s => s.length
decreasing_by
  have h := (List.dropWhile_sublist (l := c :: cs) (fun ch => ch != '\n')).length_le
  simp only [List.length_drop, List.length_cons] at *
  omega

/-- Each character of a digit is neither a newline nor a NUL. -/
theorem digitChar_ne (d : Nat) (hd : d < 10) :
    digitChar d ≠ '\n' ∧ digitChar d ≠ nulChar := by
  have hall : ∀ d2, d2 < 10 → digitChar d2 ≠ '\n' ∧ digitChar d2 ≠ nulChar := by decide
  exact hall d hd

theorem decimalDigitsRev_no_newline :
    ∀ (n : Nat), ∀ c ∈ decimalDigitsRev n, c ≠ '\n' ∧ c ≠ nulChar
  | 0, c, hc => by simp [decimalDigitsRev] at hc
  | n + 1, c, hc => by
      simp only [decimalDigitsRev] at hc
      rcases List.mem_cons.mp hc with rfl | hmem
      · exact digitChar_ne _ (Nat.mod_lt _ (by omega))
      · exact decimalDigitsRev_no_newline ((n + 1) / 10) c hmem
termination_by n => n
decreasing_by
  exact Nat.div_lt_self (Nat.succ_pos n) (by omega)

/-- Decimal renderings never contain a newline or a NUL. -/
theorem decimalStr_no_newline (n : Nat) :
    ∀ c ∈ decimalStr n, c ≠ '\n' ∧ c ≠ nulChar := by
  intro c hc
  unfold decimalStr at hc
  split at hc
  · simp at hc
    subst hc
    decide
  · exact decimalDigitsRev_no_newline n c (List.mem_reverse.mp hc)

/-- A byte occurs in the flattened output only through one of the records. -/
theorem flatten_no_newline (recs : List (List Char))
    (h : ∀ r ∈ recs, ('\n' : Char) ∉ r) : ('\n' : Char) ∉ recs.flatten := by
  intro hmem
  obtain ⟨r, hr, hin⟩ := List.mem_flatten.mp hmem
  exact h r hr hin

/-- Facts about a window of text records: each ends with the terminator, and
newline-free sources give a newline-free stream (for non-newline terminators). -/
theorem text_records_facts (eol : Char) (window src : List (List Char))
    (hsub : ∀ b ∈ window, b ∈ src) :
    (∀ r ∈ window.map (renderText eol), r.getLast? = some eol) ∧
    (eol ≠ '\n' → (∀ b ∈ src, ('\n' : Char) ∉ b) →
      ('\n' : Char) ∉ (window.map (renderText eol)).flatten) := by
  constructor
  · intro r hr
    obtain ⟨b, -, rfl⟩ := List.mem_map.mp hr
    exact List.getLast?_concat _
  · intro hne hnl
    apply flatten_no_newline
    intro r hr
    obtain ⟨b, hb, rfl⟩ := List.mem_map.mp hr
    intro hmem
    rcases List.mem_append.mp hmem with h | h
    · exact hnl b (hsub b hb) h
    · simp at h
      exact hne h.symm

/-- Facts about a window of numeric records: each ends with the terminator,
and the stream is newline-free for non-newline terminators. -/
theorem num_records_facts (lo : Nat) (eol : Char) (window : List Nat) :
    (∀ r ∈ window.map (renderNum lo eol), r.getLast? = some eol) ∧
    (eol ≠ '\n' → ('\n' : Char) ∉ (window.map (renderNum lo eol)).flatten) := by
  constructor
  · intro r hr
    obtain ⟨i, -, rfl⟩ := List.mem_map.mp hr
    exact List.getLast?_concat _
  · intro hne
    apply flatten_no_newline
    intro r hr
    obtain ⟨i, -, rfl⟩ := List.mem_map.mp hr
    intro hmem
    rcases List.mem_append.mp hmem with h | h
    · exact (decimalStr_no_newline (lo + i) _ h).1 rfl
    · simp at h
      exact hne h.symm

/-- C7 is refuted by argument mode: a `-z -e` invocation whose single argument
contains a raw newline succeeds with `-z` set, yet the emitted byte stream
contains a `'\n'` byte. -/
theorem shuf_z_newline_counterexample :
    shuf_main 32767 (2 ^ 32 - 1) (fun _ => 0)
        ⟨true, false, true, [], none, [['a', '\n', 'b']], []⟩ =
      Except.ok [['a', '\n', 'b', nulChar]] ∧
    (⟨true, false, true, [], none, [['a', '\n', 'b']], []⟩ : Config).opt_z = true ∧
    ('\n' : Char) ∈ [['a', '\n', 'b', nulChar]].flatten :=
  ⟨rfl, rfl, by decide⟩

/-- C7 (amended): with `-z` every emitted record is NUL-terminated and —
provided no argument-mode line itself contains a newline, which holds
automatically in stream and range modes — the output byte stream contains no
`'\n'` byte; without `-z` every emitted record is `'\n'`-terminated. -/
theorem shuf_main_terminators (randMax maxCount : Nat) (rnd : Nat → Nat)
    (cfg : Config) (recs : List (List Char))
    (hrun : shuf_main randMax maxCount rnd cfg = .ok recs) :
    (cfg.opt_z = true →
      (∀ r ∈ recs, r.getLast? = some nulChar) ∧
      ((cfg.opt_e = true → ∀ a ∈ cfg.args, ('\n' : Char) ∉ a) →
        ('\n' : Char) ∉ recs.flatten)) ∧
    (cfg.opt_z = false → ∀ r ∈ recs, r.getLast? = some ('\n' : Char)) := by
  have main : (∀ r ∈ recs, r.getLast? = some (eolOf cfg)) ∧
      (eolOf cfg ≠ '\n' →
        (cfg.opt_e = true → ∀ a ∈ cfg.args, ('\n' : Char) ∉ a) →
        ('\n' : Char) ∉ recs.flatten) := by
    by_cases he : cfg.opt_e = true
    · by_cases hoi : cfg.opt_i = true
      · exfalso
        simp [shuf_main, he, hoi] at hrun
      · obtain ⟨shuffled, -, hperm, hpipe⟩ := shuf_pipeline_shape randMax rnd
          (renderText (eolOf cfg)) [] cfg.args cfg.optN
        have hrec : recs = (shuffled.drop
            (cfg.args.length - effOutlines cfg.optN cfg.args.length)).map
            (renderText (eolOf cfg)) := by
          simp [shuf_main, he, hoi, hpipe] at hrun
          rw [List.map_drop]
          exact hrun.symm
        subst hrec
        have hsub : ∀ b ∈ shuffled.drop
            (cfg.args.length - effOutlines cfg.optN cfg.args.length), b ∈ cfg.args :=
          fun b hb => (hperm.mem_iff).mp (List.mem_of_mem_drop hb)
        obtain ⟨g1, g2⟩ := text_records_facts (eolOf cfg) _ cfg.args hsub
        exact ⟨g1, fun hne hargnl => g2 hne (hargnl he)⟩
    · by_cases hoi : cfg.opt_i = true
      · rcases hargs : cfg.args with _ | ⟨a, rest⟩
        · rcases hp : parseRange maxCount cfg.opt_i_str with e | ⟨lo, hi⟩
          · exfalso
            simp [shuf_main, he, hoi, hargs, hp] at hrun
          · obtain ⟨shuffled, -, -, hpipe⟩ := shuf_pipeline_shape randMax rnd
              (renderNum lo (eolOf cfg)) 0 (List.range (hi - lo + 1)) cfg.optN
            have hrec : recs = (shuffled.drop
                ((List.range (hi - lo + 1)).length -
                  effOutlines cfg.optN (List.range (hi - lo + 1)).length)).map
                (renderNum lo (eolOf cfg)) := by
              simp [shuf_main, he, hoi, hargs, hp, hpipe] at hrun
              rw [List.map_drop]
              simp only [List.length_range]
              exact hrun.symm
            subst hrec
            obtain ⟨g1, g2⟩ := num_records_facts lo (eolOf cfg) _
            exact ⟨g1, fun hne _ => g2 hne⟩
        · exfalso
          simp [shuf_main, he, hoi, hargs] at hrun
      · by_cases hng : cfg.args.length > 1
        · exfalso
          simp [shuf_main, he, hoi, hng] at hrun
        · obtain ⟨shuffled, -, hperm, hpipe⟩ := shuf_pipeline_shape randMax rnd
            (renderText (eolOf cfg)) [] (splitLines cfg.inputRaw) cfg.optN
          have hrec : recs = (shuffled.drop
              ((splitLines cfg.inputRaw).length -
                effOutlines cfg.optN (splitLines cfg.inputRaw).length)).map
              (renderText (eolOf cfg)) := by
            simp [shuf_main, he, hoi, hng, hpipe] at hrun
            rw [List.map_drop]
            exact hrun.symm
          subst hrec
          have hsub : ∀ b ∈ shuffled.drop
              ((splitLines cfg.inputRaw).length -
                effOutlines cfg.optN (splitLines cfg.inputRaw).length),
              b ∈ splitLines cfg.inputRaw :=
            fun b hb => (hperm.mem_iff).mp (List.mem_of_mem_drop hb)
          obtain ⟨g1, g2⟩ := text_records_facts (eolOf cfg) _ (splitLines cfg.inputRaw) hsub
          exact ⟨g1, fun hne _ => g2 hne (splitLines_no_newline cfg.inputRaw)⟩
  constructor
  · intro hz
    have heol : eolOf cfg = nulChar := by simp [eolOf, hz]
    rw [heol] at main
    exact ⟨main.1, fun hargnl => main.2 (by decide) hargnl⟩
  · intro hz
    have heol : eolOf cfg = '\n' := by simp [eolOf, hz]
    rw [heol] at main
    exact main.1

theorem shuf_main_terminators_witness :
    ((⟨true, false, true, [], none, [['a']], []⟩ : Config).opt_z = true →
      (∀ r ∈ [['a', nulChar]], r.getLast? = some nulChar) ∧
      (((⟨true, false, true, [], none, [['a']], []⟩ : Config).opt_e = true →
          ∀ a ∈ (⟨true, false, true, [], none, [['a']], []⟩ : Config).args,
            ('\n' : Char) ∉ a) →
        ('\n' : Char) ∉ [['a', nulChar]].flatten)) ∧
    ((⟨true, false, true, [], none, [['a']], []⟩ : Config).opt_z = false →
      ∀ r ∈ [['a', nulChar]], r.getLast? = some ('\n' : Char)) :=
  shuf_main_terminators 32767 (2 ^ 32 - 1) (fun _ => 0)
    ⟨true, false, true, [], none, [['a']], []⟩ [['a', nulChar]] rfl

/-! The modulo-reduction bias of the two-draw random index. -/

/-- Bits of `b * 2 ^ k + a` with `a < 2 ^ k`: low bits come from `a`, high
bits from `b`. -/
theorem testBit_mul_pow_add (b k a i : Nat) (ha : a < 2 ^ k) :
    (b * 2 ^ k + a).testBit i = if i < k then a.testBit i else b.testBit (i - k) := by
  rcases Nat.lt_or_ge i k with hik | hik
  · rw [if_pos hik, Nat.testBit_to_div_mod, Nat.testBit_to_div_mod]
    have hsplit : (2 : Nat) ^ k = 2 ^ (k - i) * 2 ^ i := by
      rw [← pow_add]
      congr 1
      omega
    have he1 : b * 2 ^ k + a = a + 2 ^ i * (b * 2 ^ (k - i)) := by
      rw [hsplit]
      ring
    rw [he1, Nat.add_mul_div_left _ _ (Nat.two_pow_pos i)]
    have he2 : b * 2 ^ (k - i) = b * 2 ^ (k - i - 1) * 2 := by
      obtain ⟨t, ht⟩ : ∃ t, k - i = t + 1 := ⟨k - i - 1, by omega⟩
      rw [ht, Nat.succ_sub_one, pow_succ]
      ring
    rw [he2, Nat.add_mul_mod_self_right]
  · rw [if_neg (by omega), Nat.testBit_to_div_mod, Nat.testBit_to_div_mod]
    have he2 : (b * 2 ^ k + a) / 2 ^ i = b / 2 ^ (i - k) := by
      have hsplit : (2 : Nat) ^ i = 2 ^ k * 2 ^ (i - k) := by
        rw [← pow_add]
        congr 1
        omega
      rw [hsplit, ← Nat.div_div_eq_div_mul]
      congr 1
      rw [Nat.add_comm, Nat.mul_comm, Nat.add_mul_div_left _ _ (Nat.two_pow_pos k),
        Nat.div_eq_of_lt ha, Nat.zero_add]
    rw [he2]

/-- XOR with a value whose low `k` bits are clear is addition: the entropy
extension `r ^= rand() << 15` really concatenates the two draws. -/
theorem xor_shiftLeft_eq_add (k b a : Nat) (ha : a < 2 ^ k) :
    a ^^^ (b <<< k) = b <<< k + a := by
  apply Nat.eq_of_testBit_eq
  intro i
  have hb0 : ∀ j, (b * 2 ^ k).testBit j = if j < k then false else b.testBit (j - k) := by
    intro j
    have h := testBit_mul_pow_add b k 0 j (Nat.two_pow_pos k)
    simpa using h
  rw [Nat.testBit_xor, Nat.shiftLeft_eq, testBit_mul_pow_add b k a i ha, hb0 i]
  rcases Nat.lt_or_ge i k with hik | hik
  · rw [if_pos hik, if_pos hik]
    simp
  · rw [if_neg (by omega), if_neg (by omega)]
    have haf : a.testBit i = false :=
      Nat.testBit_lt_two_pow (lt_of_lt_of_le ha (Nat.pow_le_pow_right (by omega) hik))
    rw [haf]
    simp

/-- On in-range draws the combination `d1 ^ (d2 << 15)` is exactly
`d2 * 2 ^ 15 + d1`, a bijection onto `[0, 2 ^ 30)`. -/
theorem combineDraws_eq (d1 d2 : Nat) (h1 : d1 < 2 ^ 15) (h2 : d2 < 2 ^ 15) :
    combineDraws d1 d2 = d2 * 2 ^ 15 + d1 := by
  have hs : d2 <<< 15 = d2 * 2 ^ 15 := Nat.shiftLeft_eq d2 15
  have hlt1 : d2 <<< 15 < 2 ^ 32 := by
    rw [hs]
    omega
  unfold combineDraws
  rw [Nat.mod_eq_of_lt hlt1, xor_shiftLeft_eq_add 15 d2 d1 h1,
    Nat.mod_eq_of_lt (by rw [hs]; omega), hs]

/-- Decomposition of `range (m * k)` into `m` blocks of `k`. -/
theorem range_mul_flatMap (k : Nat) :
    ∀ m : Nat, List.range (m * k) =
      (List.range m).flatMap (fun i => (List.range k).map (fun j => i * k + j))
  | 0 => by simp
  | m + 1 => by
      rw [Nat.succ_mul, List.range_add, List.range_succ, List.flatMap_append,
        ← range_mul_flatMap k m]
      simp

/-- Outcome counts of the reduction `r % n` over a uniform domain `[0, D)`:
every value `v < n` is hit `D / n` times, plus once more exactly when
`v < D % n`. -/
theorem count_mod_range (n : Nat) (hn : 0 < n) :
    ∀ (D v : Nat), v < n →
      ((List.range D).map (fun r => r % n)).count v =
        D / n + (if v < D % n then 1 else 0)
  | 0, v, _ => by simp
  | D + 1, v, hv => by
      rw [List.range_succ, List.map_append, List.count_append,
        count_mod_range n hn D v hv]
      have hmod : D % n < n := Nat.mod_lt _ hn
      have he1 : D + 1 = (D % n + 1) + n * (D / n) := by
        have := Nat.div_add_mod D n
        omega
      have ediv : (D + 1) / n = (D % n + 1) / n + D / n := by
        rw [he1, Nat.add_mul_div_left _ _ hn]
      have emod : (D + 1) % n = (D % n + 1) % n := by
        rw [he1, Nat.add_mul_mod_self_left]
      simp only [List.map_cons, List.map_nil, List.count_cons, List.count_nil,
        beq_iff_eq]
      rcases Nat.lt_or_ge (D % n + 1) n with hc | hc
      · have hdiv2 : (D % n + 1) / n = 0 := Nat.div_eq_of_lt hc
        have hmod2 : (D % n + 1) % n = D % n + 1 := Nat.mod_eq_of_lt hc
        rw [ediv, emod, hdiv2, hmod2]
        split_ifs <;> omega
      · have hceq : D % n + 1 = n := by omega
        have hdiv2 : (D % n + 1) / n = 1 := by rw [hceq, Nat.div_self hn]
        have hmod2 : (D % n + 1) % n = 0 := by rw [hceq, Nat.mod_self]
        rw [ediv, emod, hdiv2, hmod2]
        split_ifs <;> omega

/-- Closed form of the two-draw outcome frequency for large active lengths. -/
theorem idxFreq_eq (n v : Nat) (hrm : RAND_MAX < n) (hv : v < n) :
    idxFreq n v = 2 ^ 30 / n + (if v < 2 ^ 30 % n then 1 else 0) := by
  have hRM : RAND_MAX = 32767 := rfl
  have hn : 0 < n := by omega
  have hR1 : RAND_MAX + 1 = 2 ^ 15 := by norm_num [RAND_MAX]
  have hinner : ∀ d2 ∈ List.range (2 ^ 15),
      (List.range (2 ^ 15)).map (fun d1 => randIndex RAND_MAX n d1 d2) =
      (List.range (2 ^ 15)).map (fun d1 => (d2 * 2 ^ 15 + d1) % n) := by
    intro d2 hd2
    apply List.map_congr_left
    intro d1 hd1
    have hd1b : d1 < 2 ^ 15 := List.mem_range.mp hd1
    have hd2b : d2 < 2 ^ 15 := List.mem_range.mp hd2
    simp only [randIndex]
    rw [if_pos hrm, combineDraws_eq d1 d2 hd1b hd2b]
  unfold idxFreq
  rw [hR1, List.flatMap_def, List.map_congr_left hinner, ← List.flatMap_def]
  have hall : (List.range (2 ^ 15)).flatMap
      (fun d2 => (List.range (2 ^ 15)).map (fun d1 => (d2 * 2 ^ 15 + d1) % n)) =
      (List.range (2 ^ 30)).map (fun r => r % n) := by
    have h30 : (2 : Nat) ^ 30 = 2 ^ 15 * 2 ^ 15 := by norm_num
    rw [h30, range_mul_flatMap (2 ^ 15) (2 ^ 15), List.map_flatMap]
    simp [List.map_map, Function.comp_def]
  rw [hall]
  exact count_mod_range n hn (2 ^ 30) v hv

/-- C6: each shuffle iteration reduces a single draw modulo `n` when
`n ≤ RAND_MAX` and the combination `draw1 XOR (draw2 << 15)` (taken in the
32-bit word) modulo `n` when `n > RAND_MAX`; this modulo reduction makes low
index values strictly more frequent than high index values near the top of the
range whenever `n` does not divide the combined draw range. -/
theorem randIndex_two_draw_and_modulo_bias :
    (∀ randMax n d1 d2, randIndex randMax n d1 d2 =
      (if randMax < n then combineDraws d1 d2 else d1) % n) ∧
    (∀ d1 d2, combineDraws d1 d2 = (d1 ^^^ ((d2 <<< 15) % 2 ^ 32)) % 2 ^ 32) ∧
    (∀ n v w, RAND_MAX < n → n ≤ 2 ^ 30 → ¬ n ∣ 2 ^ 30 →
      v < 2 ^ 30 % n → 2 ^ 30 % n ≤ w → w < n →
      idxFreq n w < idxFreq n v) := by
  refine ⟨fun _ _ _ _ => rfl, fun _ _ => rfl, ?_⟩
  intro n v w hrm hnD _ hv hw hwn
  have hn : 0 < n := by
    have hRM : RAND_MAX = 32767 := rfl
    omega
  have hvn : v < n := lt_of_lt_of_le hv (Nat.le_of_lt (Nat.mod_lt _ hn))
  rw [idxFreq_eq n v hrm hvn, idxFreq_eq n w hrm hwn]
  rw [if_pos hv, if_neg (by omega)]
  omega

theorem randIndex_two_draw_and_modulo_bias_witness :
    idxFreq (2 ^ 30 - 1) 1 < idxFreq (2 ^ 30 - 1) 0 :=
  randIndex_two_draw_and_modulo_bias.2.2 (2 ^ 30 - 1) 0 1 (by decide) (by decide)
    (by decide) (by decide) (by decide) (by decide)

end BusyboxShuf
